import Mathlib

/-
Verification of the balltze tag-import / dependency-resolution engine
(design spec sections 3 to 7) and of the widget event header.

The public API surface is declared in the repository header
(import_tag_from_map, import_tags_from_map, reload_tag_data,
replace_tag_dependencies); the engine behind those declarations is
modelled here from the design spec, faithful to its words.  The widget
event predicates are translated directly from the header source.
-/

deriving instance DecidableEq for Except

namespace Balltze

/-- AssetHandle, spec section 3: opaque identifier, index plus generation
salt.  The index is a u32 slot number in the Asset Table. -/
structure AssetHandle where
  index : Nat
  salt : Nat
deriving DecidableEq, Repr

/-- The all-ones u32 index: the sentinel index of the null handle,
spec section 4.4 (a dependency field holding it denotes no reference). -/
def NULL_INDEX : Nat := 4294967295

/-- The null handle sentinel (index all-ones). -/
def nullHandle : AssetHandle := ⟨NULL_INDEX, 0⟩

/-- One slot of the handle allocator arena: occupancy flag plus the
generation salt counter, spec section 4.1. -/
structure Slot where
  occupied : Bool
  salt : Nat
deriving DecidableEq, Repr

/-- Modelled from the spec: the Handle Allocator (section 4.1), an arena
of slots; a handle is valid iff its slot is occupied and its salt matches
the slot current salt. -/
structure Allocator where
  slots : List Slot
deriving DecidableEq, Repr

/-- Modelled from the spec: is_valid (section 4.1), O(1) check of the
handle against current slot occupancy and salt. -/
def is_valid (a : Allocator) (h : AssetHandle) : Bool :=
  match a.slots[h.index]? with
  | some s => s.occupied && s.salt == h.salt
  | none => false

/-- Index of the lowest free slot, if any (allocate reuses the lowest
free index, spec section 4.1). -/
def lowestFree : List Slot → Option Nat
  | [] => none
  | s :: rest => if s.occupied then (lowestFree rest).map (· + 1) else some 0

/-- Modelled from the spec: allocate (section 4.1).  Reuses the lowest
free index and increments that slot salt; if no slot is free a fresh
slot is appended (its salt counter starts at zero and is incremented). -/
def allocate (a : Allocator) : Allocator × AssetHandle :=
  match lowestFree a.slots with
  | some i =>
    let s := a.slots[i]?.getD ⟨false, 0⟩
    (⟨a.slots.set i ⟨true, s.salt + 1⟩⟩, ⟨i, s.salt + 1⟩)
  | none => (⟨a.slots ++ [⟨true, 1⟩]⟩, ⟨a.slots.length, 1⟩)

/-- Errors of the engine, spec section 7 taxonomy. -/
inductive EngineError where
  | InvalidHandle
  | UnknownClass
  | MapNotFound
  | TagNotFound
  | SourceUnavailable
  | UnresolvedDependency
deriving DecidableEq, Repr

/-- Modelled from the spec: release (section 4.1).  Fails with
InvalidHandle if the handle is not currently valid; marks the slot free
and does not zero the salt counter. -/
def release (a : Allocator) (h : AssetHandle) : Except EngineError Allocator :=
  if is_valid a h then
    let s := a.slots[h.index]?.getD ⟨false, 0⟩
    .ok ⟨a.slots.set h.index ⟨false, s.salt⟩⟩
  else .error .InvalidHandle

/-- Salt currently stored at slot i (0 when the slot does not exist). -/
def slotSalt (a : Allocator) (i : Nat) : Nat :=
  (a.slots[i]?.getD ⟨false, 0⟩).salt

/-- One call of the allocator API, for traces of allocate and release
calls (spec section 8, handle uniqueness property). -/
inductive AllocOp where
  | opAlloc
  | opRelease (h : AssetHandle)
deriving DecidableEq, Repr

/-- One step of an allocator trace.  The second component is the list of
simultaneously live handles: allocate adds the returned handle, a
successful release removes the released handle. -/
def stepOp (s : Allocator × List AssetHandle) (op : AllocOp) :
    Allocator × List AssetHandle :=
  match op with
  | .opAlloc => ((allocate s.1).1, (allocate s.1).2 :: s.2)
  | .opRelease h =>
    match release s.1 h with
    | .ok a2 => (a2, s.2.filter (fun x => x != h))
    | .error _ => s

/-- Run a trace of allocator calls from the empty allocator. -/
def runOps (ops : List AllocOp) : Allocator × List AssetHandle :=
  ops.foldl stepOp (⟨[]⟩, [])

/-- Well-formedness of an allocator trace state: the live handles are
pairwise distinct and all valid. -/
def liveWF (s : Allocator × List AssetHandle) : Prop :=
  s.2.Nodup ∧ ∀ h ∈ s.2, is_valid s.1 h = true

/-- AssetClass, spec section 3: enumerated kind tag of an asset, drawn
from the closed catalog of the Schema Registry.  The catalog itself is
external data, so the class is modelled as an opaque code. -/
structure AssetClass where
  code : Nat
deriving DecidableEq, Repr

/-- A map reference, spec section 3: either a map name or a map file
path, resolved lazily at drain time. -/
inductive MapRef where
  | mapName (s : String)
  | mapFile (s : String)
deriving DecidableEq, Repr

/-- The binary payload of an asset, abstracted at field granularity:
the handle-sized words of raw_bytes, keyed by byte offset.  Opaque data
is never inspected (spec section 3), so only words that schemas may
address are modelled. -/
abbrev Payload := List (Nat × AssetHandle)

/-- Read the handle stored at a field offset of a payload; offsets not
present in the payload read as the null handle. -/
def readField (bytes : Payload) (off : Nat) : AssetHandle :=
  match bytes.find? (fun p => p.1 == off) with
  | some p => p.2
  | none => nullHandle

/-- Write the handle bytes at a field offset of a payload (spec section
4.4: Rewrite writes the new handle bytes directly into raw_bytes at
field_offset). -/
def writeField (bytes : Payload) (off : Nat) (h : AssetHandle) : Payload :=
  bytes.map (fun p => if p.1 == off then (p.1, h) else p)

/-- AssetRecord, spec section 3: handle, class, path, raw bytes and the
id of the map the payload came from. -/
structure AssetRecord where
  handle : AssetHandle
  cls : AssetClass
  path : String
  raw_bytes : Payload
  source_map_id : MapRef
deriving DecidableEq, Repr

/-- Modelled from the spec: the Asset Table (section 4.2), the live
collection of loaded assets keyed by handle, with secondary lookup by
(path, class); records are kept in insertion order. -/
structure AssetTable where
  alloc : Allocator
  records : List AssetRecord
deriving DecidableEq, Repr

/-- Modelled from the spec: find (section 4.2), secondary lookup by
(path, class); last insert wins on collision, hence the search from the
most recent record. -/
def AssetTable.find (t : AssetTable) (path : String) (cls : AssetClass) :
    Option AssetHandle :=
  (t.records.reverse.find? (fun r => r.path == path && r.cls == cls)).map
    (fun r => r.handle)

/-- Modelled from the spec: get (section 4.2), lookup of the record of a
valid handle. -/
def AssetTable.get (t : AssetTable) (h : AssetHandle) : Option AssetRecord :=
  if is_valid t.alloc h then t.records.find? (fun r => r.handle == h)
  else none

/-- Modelled from the spec: insert (section 4.2), allocates a handle and
stores the record. -/
def AssetTable.insert (t : AssetTable) (cls : AssetClass) (path : String)
    (bytes : Payload) (src : MapRef) : AssetTable × AssetHandle :=
  let a2 := allocate t.alloc
  (⟨a2.1, t.records ++ [⟨a2.2, cls, path, bytes, src⟩]⟩, a2.2)

/-- Modelled from the spec: replace_payload (section 4.2), in-place swap
of raw_bytes preserving handle, class and path; fails with InvalidHandle
if the handle is stale. -/
def AssetTable.replace_payload (t : AssetTable) (h : AssetHandle)
    (newBytes : Payload) : Except EngineError AssetTable :=
  if is_valid t.alloc h then
    .ok ⟨t.alloc, t.records.map
      (fun r => if r.handle == h then { r with raw_bytes := newBytes } else r)⟩
  else .error .InvalidHandle

/-- A schema field, spec section 3: either opaque data or a dependency
field with its offset and expected class (none meaning any). -/
inductive SchemaField where
  | opaqueData
  | depField (offset : Nat) (expected : Option AssetClass)
deriving DecidableEq, Repr

/-- Schema, spec section 3: ordered list of fields of an asset class. -/
abbrev Schema := List SchemaField

/-- The dependency field offsets a schema declares, in declaration
order. -/
def depOffsets (s : Schema) : List Nat :=
  s.filterMap (fun f => match f with
    | .depField off _ => some off
    | .opaqueData => none)

/-- Action of the dependency walker callback, spec section 4.4. -/
inductive Action where
  | Keep
  | Rewrite (h : AssetHandle)
deriving DecidableEq, Repr

/-- One step of the dependency walk: opaque fields are skipped, a
dependency field holding the null sentinel (index all-ones) is skipped,
otherwise the callback is invoked and a Rewrite action writes the new
handle into the payload.  The second accumulator component logs the
(offset, handle) pairs the callback was invoked on. -/
def walkStep (f : Nat → AssetHandle → Action)
    (acc : Payload × List (Nat × AssetHandle)) (fld : SchemaField) :
    Payload × List (Nat × AssetHandle) :=
  match fld with
  | .opaqueData => acc
  | .depField off _ =>
    let h := readField acc.1 off
    if h.index == NULL_INDEX then acc
    else
      match f off h with
      | .Keep => (acc.1, acc.2 ++ [(off, h)])
      | .Rewrite h2 => (writeField acc.1 off h2, acc.2 ++ [(off, h)])

/-- Modelled from the spec: for_each_dependency (section 4.4), the
generic dependency walker.  Invokes the callback once per non-null
dependency field of the record, in schema field declaration order; the
returned log records the invocations. -/
def for_each_dependency (bytes : Payload) (schema : Schema)
    (f : Nat → AssetHandle → Action) : Payload × List (Nat × AssetHandle) :=
  schema.foldl (walkStep f) (bytes, [])

/-- The invocation list the spec promises for a walk: one entry per
dependency field declared by the schema whose stored handle is not the
null sentinel, in declaration order. -/
def depCallLog (bytes : Payload) (schema : Schema) :
    List (Nat × AssetHandle) :=
  (depOffsets schema).filterMap (fun off =>
    let h := readField bytes off
    if h.index == NULL_INDEX then none else some (off, h))

/-- The handles a record directly references, read off by a pure walk. -/
def deps_of_record (r : AssetRecord) (sf : AssetClass → Schema) :
    List AssetHandle :=
  (for_each_dependency r.raw_bytes (sf r.cls) (fun _ _ => .Keep)).2.map
    (fun p => p.2)

/-- Direct reference relation between two handles of a table: the record
of the first holds a dependency field whose handle is the second. -/
def references (t : AssetTable) (sf : AssetClass → Schema)
    (h1 h2 : AssetHandle) : Prop :=
  ∃ r, t.get h1 = some r ∧ h2 ∈ deps_of_record r sf

/-- One invocation of the dependency walker on the record of one handle
of the table. -/
def walk_record (t : AssetTable) (h : AssetHandle)
    (sf : AssetClass → Schema) (f : Nat → AssetHandle → Action) :
    Option (Payload × List (Nat × AssetHandle)) :=
  (t.get h).map (fun r => for_each_dependency r.raw_bytes (sf r.cls) f)

/-- Rewrite every dependency field of a payload that holds oldh to hold
newh, through the walker (spec section 4.5). -/
def rewrite_deps (bytes : Payload) (schema : Schema)
    (oldh newh : AssetHandle) : Payload :=
  (for_each_dependency bytes schema
    (fun _ h => if h == oldh then .Rewrite newh else .Keep)).1

/-- Modelled from the spec: replace_tag_dependencies (section 4.5,
declared in the repository feature header).  Walks every asset in the
table and rewrites to newh every dependency field holding oldh, leaving
the record of oldh itself untouched and not released; fails with
InvalidHandle if either handle is stale.  The schema registry is passed
explicitly (spec section 9, explicit session context). -/
def replace_tag_dependencies (t : AssetTable) (oldh newh : AssetHandle)
    (sf : AssetClass → Schema) : Except EngineError AssetTable :=
  if is_valid t.alloc oldh && is_valid t.alloc newh then
    .ok ⟨t.alloc, t.records.map (fun r =>
      if r.handle == oldh then r
      else { r with raw_bytes := rewrite_deps r.raw_bytes (sf r.cls) oldh newh })⟩
  else .error .InvalidHandle

/-- Modelled from the spec: reload_tag_data (section 4.5, declared in
the repository feature header).  Re-reads the asset payload from its
original source and calls replace_payload; fails with InvalidHandle if
the handle is stale, SourceUnavailable if the source cannot be read. -/
def reload_tag_data (t : AssetTable) (h : AssetHandle)
    (readSource : MapRef → String → AssetClass → Option Payload) :
    Except EngineError AssetTable :=
  match t.get h with
  | none => .error .InvalidHandle
  | some r =>
    match readSource r.source_map_id r.path r.cls with
    | none => .error .SourceUnavailable
    | some newBytes => t.replace_payload h newBytes

/-- Table well-formedness maintained by the engine: the handle of every
stored record is valid in the allocator of the table. -/
def TableWF (t : AssetTable) : Prop :=
  ∀ r ∈ t.records, is_valid t.alloc r.handle = true

/-- Number of records of the table carrying a given (path, class). -/
def countPC (t : AssetTable) (path : String) (cls : AssetClass) : Nat :=
  (t.records.filter (fun r => r.path == path && r.cls == cls)).length

/-- One entry of the read-only index a foreign map source provides,
spec section 6: (path, class, raw bytes). -/
structure ForeignEntry where
  path : String
  cls : AssetClass
  bytes : Payload
deriving DecidableEq, Repr

/-- The map source provider, spec section 6: resolves a map reference to
its index of entries, or fails. -/
abbrev MapProvider := MapRef → Option (List ForeignEntry)

/-- ImportRequest, spec section 3: import one tag or all tags of a
foreign map. -/
inductive ImportRequest where
  | singleTag (m : MapRef) (path : String) (cls : AssetClass)
  | allTags (m : MapRef)
deriving DecidableEq, Repr

/-- The map reference a request carries. -/
def requestMapRef : ImportRequest → MapRef
  | .singleTag m _ _ => m
  | .allTags m => m

/-- Diagnostics reported by a drain, attributable to a request (spec
section 7). -/
inductive Diagnostic where
  | MapNotFound (m : MapRef)
  | TagNotFound (m : MapRef) (path : String) (cls : AssetClass)
  | UnknownClass (c : AssetClass)
deriving DecidableEq, Repr

/-- Translated from the repository header: the first overload of the
single-tag import takes the name of the map to pull the tag from.
Modelled from the spec: the call appends a SingleTag request to the
queue, deferring all effect to drain time. -/
def import_tag_from_map_name (map_name : String) (tag_path : String)
    (tag_class : AssetClass) (queue : List ImportRequest) :
    List ImportRequest :=
  queue ++ [.singleTag (.mapName map_name) tag_path tag_class]

/-- Translated from the repository header: the second overload of the
single-tag import takes the path of the map file to pull the tag from.
Modelled from the spec: the call appends a SingleTag request to the
queue. -/
def import_tag_from_map_file (map_file : String) (tag_path : String)
    (tag_class : AssetClass) (queue : List ImportRequest) :
    List ImportRequest :=
  queue ++ [.singleTag (.mapFile map_file) tag_path tag_class]

/-- Translated from the repository header: import_tags_from_map has a
single overload whose parameter map_file is a filesystem path (the doc
comment above it calls the parameter map_name, but the declaration
takes std::filesystem::path).  Modelled from the spec: the call appends
an AllTags request to the import queue. -/
def import_tags_from_map (map_file : String)
    (queue : List ImportRequest) : List ImportRequest :=
  queue ++ [.allTags (.mapFile map_file)]

/-- Modelled from the spec: merging of one resolved foreign entry
(section 4.5 step 4).  If an asset with the same (path, class) already
exists its payload is replaced in place, otherwise a new handle is
allocated and the entry inserted. -/
def processEntry (t : AssetTable) (m : MapRef) (e : ForeignEntry) :
    AssetTable :=
  match t.find e.path e.cls with
  | some h =>
    match t.replace_payload h e.bytes with
    | .ok t2 => t2
    | .error _ => t
  | none => (t.insert e.cls e.path e.bytes m).1

/-- Modelled from the spec: processing of one queued request at drain
time (section 4.5 steps 1 to 4).  MapNotFound and TagNotFound are
scoped to the request: the request is skipped with a diagnostic and the
drain continues. -/
def processRequest (p : MapProvider) (t : AssetTable)
    (req : ImportRequest) : AssetTable × List Diagnostic :=
  match req with
  | .singleTag m path cls =>
    match p m with
    | none => (t, [.MapNotFound m])
    | some entries =>
      match entries.find? (fun e => e.path == path && e.cls == cls) with
      | none => (t, [.TagNotFound m path cls])
      | some e => (processEntry t m e, [])
  | .allTags m =>
    match p m with
    | none => (t, [.MapNotFound m])
    | some entries => (entries.foldl (fun acc e => processEntry acc m e) t, [])

/-- Merging phase of a drain: process every queued request in
submission order, accumulating scoped diagnostics. -/
def mergePhase (p : MapProvider) (acc : AssetTable × List Diagnostic)
    (reqs : List ImportRequest) : AssetTable × List Diagnostic :=
  reqs.foldl (fun acc req =>
    let step := processRequest p acc.1 req
    (step.1, acc.2 ++ step.2)) acc

/-- States of the resolution engine, spec section 4.5. -/
inductive EngineState where
  | Idle
  | Draining
  | Merging
  | Rewriting
  | Failed
deriving DecidableEq, Repr

/-- Classes of the records of a table. -/
def classesOf (t : AssetTable) : List AssetClass :=
  t.records.map (fun r => r.cls)

/-- First class of the table whose schema is missing from the registry,
if any (the UnknownClass fatal consistency error of spec section 4.3). -/
def sweepCheck (reg : AssetClass → Option Schema) (t : AssetTable) :
    Option AssetClass :=
  (classesOf t).find? (fun c => (reg c).isNone)

/-- Result of a drain: the merged table, the diagnostics of the drain,
and the final engine state. -/
structure DrainResult where
  table : AssetTable
  diags : List Diagnostic
  state : EngineState
deriving Repr

/-- Modelled from the spec: drain_at_load_boundary (section 4.5), the
only point at which queued imports take effect.  Requests are processed
in submission order with scoped per-request failures; afterwards the
rewrite sweep consults the schema registry for every stored class and
only a missing schema (UnknownClass, spec section 7) halts the drain
and moves the engine to Failed, every other condition leaving it on the
Idle path.  The step-5 renumbering rewrite itself is not modelled: the
provider interface of section 6 exposes entries as (path, class, bytes)
without the original foreign numbering the sweep would translate. -/
def drain_at_load_boundary (p : MapProvider)
    (reg : AssetClass → Option Schema) (t : AssetTable)
    (queue : List ImportRequest) : DrainResult :=
  let res := mergePhase p (t, []) queue
  match sweepCheck reg res.1 with
  | some c => ⟨res.1, res.2 ++ [.UnknownClass c], .Failed⟩
  | none => ⟨res.1, res.2, .Idle⟩

/-- Translated from the widget header source: AnalogStickWidgetEvent,
with the two int16 axis measures. -/
structure AnalogStickWidgetEvent where
  vertical : Int
  horizontal : Int
deriving DecidableEq, Repr

/-- Translated from the widget header source: the maximum int16 count. -/
def MAX_COUNT : Int := 32767

/-- Translated from the widget header source: the minimum int16 count. -/
def MIN_COUNT : Int := -32768

/-- Translated from the widget header source: tests if the analog stick
is fully up (vertical equals MAX_COUNT). -/
def AnalogStickWidgetEvent.is_fully_up (e : AnalogStickWidgetEvent) : Bool :=
  e.vertical == MAX_COUNT

/-- Translated from the widget header source: tests if the analog stick
is fully down (vertical equals MIN_COUNT). -/
def AnalogStickWidgetEvent.is_fully_down (e : AnalogStickWidgetEvent) : Bool :=
  e.vertical == MIN_COUNT

/-- Translated from the widget header source: tests if the analog stick
is fully left (horizontal equals MIN_COUNT). -/
def AnalogStickWidgetEvent.is_fully_left (e : AnalogStickWidgetEvent) : Bool :=
  e.horizontal == MIN_COUNT

/-- Translated from the widget header source: tests if the analog stick
is fully right (horizontal equals MAX_COUNT). -/
def AnalogStickWidgetEvent.is_fully_right (e : AnalogStickWidgetEvent) : Bool :=
  e.horizontal == MAX_COUNT

/-- Concrete schema fixture: two dependency fields around an opaque
field, for witnesses. -/
def wSchema : Schema := [.depField 0 none, .opaqueData, .depField 8 none]

/-- Concrete payload fixture: a real reference at offset 0 and a null
reference at offset 8, for witnesses. -/
def wBytes : Payload := [(0, ⟨2, 1⟩), (8, nullHandle)]

/-- Concrete walker callback fixture that keeps every reference. -/
def wF : Nat → AssetHandle → Action := fun _ _ => .Keep

/-- Allocator fixture with two occupied slots, for witnesses. -/
def cycAlloc : Allocator := ⟨[⟨true, 1⟩, ⟨true, 1⟩]⟩

/-- Record fixture: a model asset referencing the effect asset. -/
def cycRecA : AssetRecord :=
  ⟨⟨0, 1⟩, ⟨1⟩, "model", [(0, ⟨1, 1⟩)], .mapName "base"⟩

/-- Record fixture: an effect asset referencing the model asset back,
so the two records form a reference cycle. -/
def cycRecB : AssetRecord :=
  ⟨⟨1, 1⟩, ⟨1⟩, "effect", [(0, ⟨0, 1⟩)], .mapName "base"⟩

/-- Table fixture containing the two-record reference cycle. -/
def cycTable : AssetTable := ⟨cycAlloc, [cycRecA, cycRecB]⟩

/-- Schema registry fixture: every class has one dependency field at
offset 0. -/
def cycSf : AssetClass → Schema := fun _ => [.depField 0 none]

/-- Source reader fixture: every (map, path, class) re-reads to a
payload holding one null reference. -/
def rs0 : MapRef → String → AssetClass → Option Payload :=
  fun _ _ _ => some [(0, nullHandle)]

/-- The table cycTable after reloading the model asset through rs0. -/
def rldT2 : AssetTable :=
  ⟨cycAlloc, [{ cycRecA with raw_bytes := [(0, nullHandle)] }, cycRecB]⟩

/-- The empty asset table, for witnesses. -/
def emptyTable : AssetTable := ⟨⟨[]⟩, []⟩

/-- Provider fixture resolving no map at all. -/
def pNone : MapProvider := fun _ => none

/-- Registry fixture with a schema for every class. -/
def regAll : AssetClass → Option Schema := fun _ => some [.depField 0 none]

/-- Foreign entry fixture for drain witnesses. -/
def witEntry : ForeignEntry := ⟨"pistol", ⟨2⟩, [(0, nullHandle)]⟩

/-- Provider fixture resolving only the map file named good. -/
def pWit : MapProvider := fun m =>
  if m = MapRef.mapFile "good" then some [witEntry] else none

/-- The record transformation replace_payload applies to the one record
keyed by the handle. -/
def replBytes (h0 : AssetHandle) (nb : Payload) : AssetRecord → AssetRecord :=
  fun r => if r.handle == h0 then { r with raw_bytes := nb } else r

end Balltze

namespace Balltze

theorem lowestFree_lt_length {l : List Slot} {i : Nat}
    (h : lowestFree l = some i) : i < l.length := by
  induction l generalizing i with
  | nil => simp [lowestFree] at h
  | cons s rest ih =>
    by_cases hs : s.occupied
    · simp [lowestFree, hs] at h
      obtain ⟨j, hj, rfl⟩ := h
      simpa using Nat.succ_lt_succ (ih hj)
    · simp [lowestFree, hs] at h
      subst h
      simp


theorem lowestFree_free {l : List Slot} {i : Nat}
    (h : lowestFree l = some i) :
    ∃ s, l[i]? = some s ∧ s.occupied = false := by
  induction l generalizing i with
  | nil => simp [lowestFree] at h
  | cons s rest ih =>
    by_cases hs : s.occupied
    · simp [lowestFree, hs] at h
      obtain ⟨j, hj, rfl⟩ := h
      simpa using ih hj
    · simp [lowestFree, hs] at h
      subst h
      exact ⟨s, by simp, by simpa using hs⟩

theorem getElem?_some_lt {α : Type} {l : List α} {i : Nat} {a : α}
    (h : l[i]? = some a) : i < l.length := by
  by_contra hlt
  rw [List.getElem?_eq_none (by omega)] at h
  exact Option.noConfusion h

theorem valid_handle_eq {a : Allocator} {h1 h2 : AssetHandle}
    (hv1 : is_valid a h1 = true) (hv2 : is_valid a h2 = true)
    (hidx : h1.index = h2.index) : h1 = h2 := by
  unfold is_valid at hv1 hv2
  rw [hidx] at hv1
  cases hget : a.slots[h2.index]? with
  | none => rw [hget] at hv1; exact absurd hv1 (by simp)
  | some s =>
    rw [hget] at hv1 hv2
    simp only [Bool.and_eq_true, beq_iff_eq] at hv1 hv2
    cases h1; cases h2
    simp_all

theorem is_valid_elim {a : Allocator} {h : AssetHandle}
    (hv : is_valid a h = true) :
    ∃ s, a.slots[h.index]? = some s ∧ s.occupied = true ∧ s.salt = h.salt := by
  unfold is_valid at hv
  cases hget : a.slots[h.index]? with
  | none => rw [hget] at hv; exact absurd hv (by simp)
  | some s =>
    rw [hget] at hv
    simp only [Bool.and_eq_true, beq_iff_eq] at hv
    exact ⟨s, rfl, hv.1, hv.2⟩

theorem allocate_invalid_before (a : Allocator) :
    is_valid a (allocate a).2 = false := by
  cases hlf : lowestFree a.slots with
  | none =>
    have hnone : a.slots[a.slots.length]? = none :=
      List.getElem?_eq_none (le_refl _)
    simp [allocate, hlf, is_valid, hnone]
  | some i =>
    obtain ⟨s0, hget, hocc⟩ := lowestFree_free hlf
    simp [allocate, hlf, is_valid, hget, hocc]

theorem allocate_valid_after (a : Allocator) :
    is_valid (allocate a).1 (allocate a).2 = true := by
  cases hlf : lowestFree a.slots with
  | none =>
    simp [allocate, hlf, is_valid, List.getElem?_concat_length]
  | some i =>
    have hlt := lowestFree_lt_length hlf
    simp [allocate, hlf, is_valid, List.getElem?_set_self hlt]

theorem allocate_preserves_valid {a : Allocator} {h0 : AssetHandle}
    (hv : is_valid a h0 = true) :
    is_valid (allocate a).1 h0 = true ∧ h0 ≠ (allocate a).2 := by
  obtain ⟨s, hget, hocc, hsalt⟩ := is_valid_elim hv
  cases hlf : lowestFree a.slots with
  | none =>
    have hlt : h0.index < a.slots.length := getElem?_some_lt hget
    constructor
    · simp only [allocate, hlf, is_valid]
      rw [List.getElem?_append_left hlt, hget]
      simp [hocc, hsalt]
    · intro hcontra
      rw [hcontra] at hlt
      simp [allocate, hlf] at hlt
  | some i =>
    obtain ⟨sfree, hgetf, hoccf⟩ := lowestFree_free hlf
    have hne : h0.index ≠ i := by
      intro hcontra
      rw [hcontra, hgetf] at hget
      cases hget
      rw [hocc] at hoccf
      exact Bool.noConfusion hoccf
    constructor
    · simp only [allocate, hlf, is_valid]
      rw [List.getElem?_set_ne (Ne.symm hne), hget]
      simp [hocc, hsalt]
    · intro hcontra
      apply hne
      rw [hcontra]
      simp [allocate, hlf]

theorem release_preserves_valid {a a2 : Allocator} {h h0 : AssetHandle}
    (hrel : release a h = .ok a2) (hne : h0 ≠ h)
    (hv : is_valid a h0 = true) : is_valid a2 h0 = true := by
  unfold release at hrel
  by_cases hvh : is_valid a h = true
  · rw [if_pos hvh] at hrel
    cases hrel
    have hnei : h0.index ≠ h.index := by
      intro hidx
      exact hne (valid_handle_eq hv hvh hidx)
    simp only [is_valid]
    rw [List.getElem?_set_ne (Ne.symm hnei)]
    exact hv
  · rw [if_neg hvh] at hrel
    exact Except.noConfusion hrel

theorem stepOp_liveWF {s : Allocator × List AssetHandle} {op : AllocOp}
    (hwf : liveWF s) : liveWF (stepOp s op) := by
  obtain ⟨hnd, hval⟩ := hwf
  cases op with
  | opAlloc =>
    refine ⟨?_, ?_⟩
    · refine List.nodup_cons.mpr ⟨?_, hnd⟩
      intro hmem
      have hcontra := hval _ hmem
      rw [allocate_invalid_before] at hcontra
      exact Bool.noConfusion hcontra
    · intro h hmem
      rcases List.mem_cons.mp hmem with hcase | hcase
      · rw [hcase]; exact allocate_valid_after s.1
      · exact (allocate_preserves_valid (hval _ hcase)).1
  | opRelease h =>
    simp only [stepOp]
    cases hrel : release s.1 h with
    | error e => exact ⟨hnd, hval⟩
    | ok a2 =>
      refine ⟨hnd.filter _, ?_⟩
      intro h0 hmem
      rw [List.mem_filter] at hmem
      have hne : h0 ≠ h := by
        intro hcontra
        rw [hcontra] at hmem
        simp at hmem
      exact release_preserves_valid hrel hne (hval _ hmem.1)

theorem stepOp_salt_mono (s : Allocator × List AssetHandle)
    (op : AllocOp) (i : Nat) :
    slotSalt s.1 i ≤ slotSalt (stepOp s op).1 i := by
  cases op with
  | opAlloc =>
    simp only [stepOp]
    cases hlf : lowestFree s.1.slots with
    | none =>
      by_cases hlt : i < s.1.slots.length
      · simp only [allocate, hlf, slotSalt]
        rw [List.getElem?_append_left hlt]
      · unfold slotSalt
        rw [List.getElem?_eq_none (l := s.1.slots) (by omega)]
        simp
    | some j =>
      have hjlt := lowestFree_lt_length hlf
      obtain ⟨s0, hget, _⟩ := lowestFree_free hlf
      by_cases hij : i = j
      · subst hij
        simp only [allocate, hlf, slotSalt]
        rw [List.getElem?_set_self hjlt, hget]
        simp
      · simp only [allocate, hlf, slotSalt]
        rw [List.getElem?_set_ne (Ne.symm hij)]
  | opRelease h =>
    simp only [stepOp]
    cases hrel : release s.1 h with
    | error e => exact le_refl _
    | ok a2 =>
      unfold release at hrel
      by_cases hvh : is_valid s.1 h = true
      · rw [if_pos hvh] at hrel
        cases hrel
        by_cases hih : i = h.index
        · obtain ⟨s0, hget, _, _⟩ := is_valid_elim hvh
          have hlt : h.index < s.1.slots.length := getElem?_some_lt hget
          rw [hih]
          simp only [slotSalt]
          rw [List.getElem?_set_self hlt, hget]
          simp
        · simp only [slotSalt]
          rw [List.getElem?_set_ne (Ne.symm hih)]
      · rw [if_neg hvh] at hrel
        exact Except.noConfusion hrel

theorem foldl_stepOp_liveWF (ops : List AllocOp)
    (s : Allocator × List AssetHandle) (hwf : liveWF s) :
    liveWF (ops.foldl stepOp s) := by
  induction ops generalizing s with
  | nil => exact hwf
  | cons op rest ih => exact ih _ (stepOp_liveWF hwf)

theorem runOps_liveWF (ops : List AllocOp) : liveWF (runOps ops) :=
  foldl_stepOp_liveWF ops _ ⟨List.nodup_nil, by intro h hmem; simp at hmem⟩


/-- Claim C3: for every finite sequence of allocate and release calls,
no two simultaneously valid handles compare equal (the live handle list
is duplicate free and every live handle is valid); at most one occupied
slot per index means the valid salt of an index is unique; and the salt
of every slot is monotonically increasing across every further call,
because allocate reuses the lowest free index incrementing its salt and
release never zeroes the salt counter. -/
theorem claim3_handle_allocator_invariants (ops : List AllocOp) :
    (runOps ops).2.Nodup ∧
    (∀ h ∈ (runOps ops).2, is_valid (runOps ops).1 h = true) ∧
    (∀ i s1 s2, is_valid (runOps ops).1 ⟨i, s1⟩ = true →
      is_valid (runOps ops).1 ⟨i, s2⟩ = true → s1 = s2) ∧
    (∀ op i, slotSalt (runOps ops).1 i ≤ slotSalt (runOps (ops ++ [op])).1 i) := by
  obtain ⟨hnd, hval⟩ := runOps_liveWF ops
  refine ⟨hnd, hval, ?_, ?_⟩
  · intro i s1 s2 hv1 hv2
    have heq := valid_handle_eq hv1 hv2 rfl
    simpa using heq
  · intro op i
    have hstep : runOps (ops ++ [op]) = stepOp (runOps ops) op := by
      simp [runOps, List.foldl_append]
    rw [hstep]
    exact stepOp_salt_mono (runOps ops) op i

/-- Witness for claim C3 at a concrete trace of two allocations. -/
theorem claim3_witness :
    (runOps [AllocOp.opAlloc, AllocOp.opAlloc]).2.Nodup ∧ (1 : Nat) = 1 :=
  ⟨(claim3_handle_allocator_invariants [AllocOp.opAlloc, AllocOp.opAlloc]).1,
   (claim3_handle_allocator_invariants [AllocOp.opAlloc, AllocOp.opAlloc]).2.2.1
     0 1 1 (by decide) (by decide)⟩

/-- Claim C10: for every AnalogStickWidgetEvent value, is_fully_up and
is_fully_down never both hold, and is_fully_left and is_fully_right
never both hold, because each pair compares the same 16 bit axis with
the distinct extremes MAX_COUNT and MIN_COUNT. -/
theorem claim10_analog_stick_exclusive (e : AnalogStickWidgetEvent) :
    (e.is_fully_up && e.is_fully_down) = false ∧
    (e.is_fully_left && e.is_fully_right) = false := by
  constructor
  · simp only [AnalogStickWidgetEvent.is_fully_up,
      AnalogStickWidgetEvent.is_fully_down, MAX_COUNT, MIN_COUNT,
      Bool.and_eq_false_iff, beq_eq_false_iff_ne, ne_eq]
    omega
  · simp only [AnalogStickWidgetEvent.is_fully_left,
      AnalogStickWidgetEvent.is_fully_right, MAX_COUNT, MIN_COUNT,
      Bool.and_eq_false_iff, beq_eq_false_iff_ne, ne_eq]
    omega


theorem find?_writeField (b : Payload) (off off2 : Nat) (h : AssetHandle) :
    (writeField b off h).find? (fun p => p.1 == off2)
      = (b.find? (fun p => p.1 == off2)).map
          (fun p => if p.1 == off then (p.1, h) else p) := by
  unfold writeField
  rw [List.find?_map]
  have hpred : ((fun p : Nat × AssetHandle => p.1 == off2) ∘
      (fun p => if p.1 == off then (p.1, h) else p)) =
      (fun p : Nat × AssetHandle => p.1 == off2) := by
    funext p
    by_cases hp : p.1 = off <;> simp [Function.comp, hp]
  rw [hpred]

theorem readField_writeField_ne (b : Payload) (off off2 : Nat)
    (h : AssetHandle) (hne : off ≠ off2) :
    readField (writeField b off h) off2 = readField b off2 := by
  unfold readField
  rw [find?_writeField]
  cases hf : b.find? (fun p => p.1 == off2) with
  | none => rfl
  | some p =>
    have hp2 := List.find?_some hf
    have hpne : p.1 ≠ off := by
      simp only [beq_iff_eq] at hp2
      omega
    simp [hpne]

theorem readField_writeField_self (b : Payload) (off : Nat)
    (h : AssetHandle) (hex : readField b off ≠ nullHandle) :
    readField (writeField b off h) off = h := by
  unfold readField at hex ⊢
  rw [find?_writeField]
  cases hf : b.find? (fun p => p.1 == off) with
  | none => rw [hf] at hex; exact absurd rfl hex
  | some p =>
    have hp2 := List.find?_some hf
    simp only [beq_iff_eq] at hp2
    simp [hp2]

theorem walkStep_payload_not_mem (f : Nat → AssetHandle → Action)
    (s : Schema) (b : Payload) (l : List (Nat × AssetHandle))
    (off : Nat) (hnm : off ∉ depOffsets s) :
    readField ((s.foldl (walkStep f) (b, l)).1) off = readField b off := by
  induction s generalizing b l with
  | nil => rfl
  | cons fld rest ih =>
    cases fld with
    | opaqueData =>
      simp only [List.foldl_cons, walkStep]
      exact ih b l (by simpa [depOffsets] using hnm)
    | depField off2 e =>
      have hne : off2 ≠ off := by
        intro hcon
        exact hnm (by simp [depOffsets, hcon])
      have hrest : off ∉ depOffsets rest := by
        intro hcon
        exact hnm (by simp [depOffsets]; right; simpa [depOffsets] using hcon)
      simp only [List.foldl_cons, walkStep]
      by_cases hnull : (readField b off2).index == NULL_INDEX
      · rw [if_pos hnull]
        exact ih b l hrest
      · rw [if_neg hnull]
        cases f off2 (readField b off2) with
        | Keep => exact ih b _ hrest
        | Rewrite h2 =>
          rw [ih _ _ hrest]
          exact readField_writeField_ne b off2 off h2 hne

theorem depCallLog_write_not_mem (b : Payload) (s : Schema) (off : Nat)
    (h2 : AssetHandle) (hnm : off ∉ depOffsets s) :
    depCallLog (writeField b off h2) s = depCallLog b s := by
  unfold depCallLog
  apply List.filterMap_congr
  intro x hx
  have hne : off ≠ x := by
    intro hcon
    rw [hcon] at hnm
    exact hnm hx
  rw [readField_writeField_ne b off x h2 hne]

theorem depCallLog_cons_opaque (b : Payload) (rest : Schema) :
    depCallLog b (SchemaField.opaqueData :: rest) = depCallLog b rest := by
  unfold depCallLog
  have hoffs : depOffsets (SchemaField.opaqueData :: rest) = depOffsets rest := by
    simp [depOffsets]
  rw [hoffs]

theorem depCallLog_cons_dep (b : Payload) (off : Nat)
    (e : Option AssetClass) (rest : Schema) :
    depCallLog b (SchemaField.depField off e :: rest) =
      (if (readField b off).index == NULL_INDEX then []
        else [(off, readField b off)]) ++ depCallLog b rest := by
  by_cases hnull : (readField b off).index == NULL_INDEX
  · simp only [beq_iff_eq] at hnull
    simp [depCallLog, depOffsets, hnull]
  · simp only [beq_iff_eq] at hnull
    simp [depCallLog, depOffsets, hnull]

theorem walk_log (f : Nat → AssetHandle → Action) (s : Schema)
    (b : Payload) (l : List (Nat × AssetHandle))
    (hnd : (depOffsets s).Nodup) :
    (s.foldl (walkStep f) (b, l)).2 = l ++ depCallLog b s := by
  induction s generalizing b l with
  | nil => simp [depCallLog, depOffsets]
  | cons fld rest ih =>
    cases fld with
    | opaqueData =>
      simp only [List.foldl_cons, walkStep]
      have hnd2 : (depOffsets rest).Nodup := by
        simpa [depOffsets] using hnd
      rw [ih b l hnd2, depCallLog_cons_opaque]
    | depField off e =>
      have hoffs : depOffsets (SchemaField.depField off e :: rest) =
          off :: depOffsets rest := by
        simp [depOffsets]
      rw [hoffs] at hnd
      have hnd2 : (depOffsets rest).Nodup := (List.nodup_cons.mp hnd).2
      have hnm : off ∉ depOffsets rest := (List.nodup_cons.mp hnd).1
      simp only [List.foldl_cons, walkStep]
      by_cases hnull : (readField b off).index == NULL_INDEX
      · rw [if_pos hnull, ih b l hnd2, depCallLog_cons_dep]
        simp [hnull]
      · rw [if_neg hnull]
        cases f off (readField b off) with
        | Keep =>
          rw [ih b _ hnd2, depCallLog_cons_dep]
          simp [hnull]
        | Rewrite h2 =>
          rw [ih _ _ hnd2, depCallLog_write_not_mem b rest off h2 hnm,
            depCallLog_cons_dep]
          simp [hnull]

theorem walkStep_log_le (f : Nat → AssetHandle → Action)
    (acc : Payload × List (Nat × AssetHandle)) (fld : SchemaField) :
    (walkStep f acc fld).2.length ≤ acc.2.length + 1 := by
  cases fld with
  | opaqueData => simp [walkStep]
  | depField off e =>
    simp only [walkStep]
    by_cases hnull : (readField acc.1 off).index == NULL_INDEX
    · rw [if_pos hnull]
      omega
    · rw [if_neg hnull]
      cases f off (readField acc.1 off) <;> simp

theorem foldl_walk_log_le (f : Nat → AssetHandle → Action) (s : Schema) :
    ∀ acc : Payload × List (Nat × AssetHandle),
      (s.foldl (walkStep f) acc).2.length ≤ acc.2.length + s.length := by
  induction s with
  | nil =>
    intro acc
    simp
  | cons fld rest ih =>
    intro acc
    simp only [List.foldl_cons, List.length_cons]
    calc (rest.foldl (walkStep f) (walkStep f acc fld)).2.length
        ≤ (walkStep f acc fld).2.length + rest.length := ih _
      _ ≤ (acc.2.length + 1) + rest.length := by
          have hle := walkStep_log_le f acc fld
          omega
      _ = acc.2.length + (rest.length + 1) := by omega


/-- Claim C6: for every record and schema, for_each_dependency invokes
the callback exactly once per dependency field the schema declares
whose stored handle is not the null sentinel, in schema field
declaration order; a dependency field holding the null handle (index
all-ones) is never passed to the callback.  The schema is assumed to
declare its dependency fields at pairwise distinct offsets, as disjoint
fields of one record layout. -/
theorem claim6_for_each_dependency_enumeration (bytes : Payload)
    (schema : Schema) (f : Nat → AssetHandle → Action)
    (hnd : (depOffsets schema).Nodup) :
    (for_each_dependency bytes schema f).2 = depCallLog bytes schema ∧
    ∀ p ∈ (for_each_dependency bytes schema f).2, p.2.index ≠ NULL_INDEX := by
  have hlog : (for_each_dependency bytes schema f).2 = depCallLog bytes schema := by
    unfold for_each_dependency
    simpa using walk_log f schema bytes [] hnd
  refine ⟨hlog, ?_⟩
  intro p hp
  rw [hlog] at hp
  unfold depCallLog at hp
  rw [List.mem_filterMap] at hp
  obtain ⟨off, hoff, heq⟩ := hp
  by_cases hnull : (readField bytes off).index == NULL_INDEX
  · simp [hnull] at heq
  · simp only [beq_iff_eq] at hnull
    simp [hnull] at heq
    rw [← heq]
    exact hnull

/-- Witness for claim C6 at a concrete payload and schema. -/
theorem claim6_witness :
    (depOffsets wSchema).Nodup ∧
    (for_each_dependency wBytes wSchema wF).2 = depCallLog wBytes wSchema :=
  ⟨by decide, (claim6_for_each_dependency_enumeration wBytes wSchema wF
    (by decide)).1⟩

/-- Claim C7: for every asset table containing cyclic references, one
invocation of the dependency walker terminates with a result computed
from the one given record alone: the walk equals the walk of that
record, coincides for any other table holding the same record at the
handle (no transitive following into other records), and the number of
callback invocations is bounded by the schema length. -/
theorem claim7_walker_cycle_safe (t t2 : AssetTable)
    (sf : AssetClass → Schema) (f : Nat → AssetHandle → Action)
    (h h1 h2 : AssetHandle) (r : AssetRecord)
    (hcyc : references t sf h1 h2 ∧ references t sf h2 h1)
    (hr : t.get h = some r) (hr2 : t2.get h = some r) :
    walk_record t h sf f =
      some (for_each_dependency r.raw_bytes (sf r.cls) f) ∧
    walk_record t2 h sf f = walk_record t h sf f ∧
    (for_each_dependency r.raw_bytes (sf r.cls) f).2.length ≤
      (sf r.cls).length := by
  refine ⟨?_, ?_, ?_⟩
  · unfold walk_record
    rw [hr]
    rfl
  · unfold walk_record
    rw [hr, hr2]
  · unfold for_each_dependency
    simpa using foldl_walk_log_le f (sf r.cls) (r.raw_bytes, [])

/-- Witness for claim C7 at a concrete two-record cyclic table. -/
theorem claim7_witness :
    (references cycTable cycSf ⟨0, 1⟩ ⟨1, 1⟩ ∧
      references cycTable cycSf ⟨1, 1⟩ ⟨0, 1⟩) ∧
    walk_record cycTable ⟨0, 1⟩ cycSf wF =
      some (for_each_dependency cycRecA.raw_bytes (cycSf cycRecA.cls) wF) :=
  ⟨⟨⟨cycRecA, by decide, by decide⟩, ⟨cycRecB, by decide, by decide⟩⟩,
   (claim7_walker_cycle_safe cycTable cycTable cycSf wF ⟨0, 1⟩ ⟨0, 1⟩ ⟨1, 1⟩
     cycRecA
     ⟨⟨cycRecA, by decide, by decide⟩, ⟨cycRecB, by decide, by decide⟩⟩
     (by decide) (by decide)).1⟩


theorem rewrite_cb_pos {oldh newh : AssetHandle} {h : AssetHandle}
    (hold : (h == oldh) = true) :
    (if h == oldh then Action.Rewrite newh else Action.Keep) =
      Action.Rewrite newh := if_pos hold

theorem rewrite_deps_read_aux (oldh newh : AssetHandle) (s : Schema)
    (hnew : oldh.index ≠ NULL_INDEX) :
    ∀ (b : Payload) (l : List (Nat × AssetHandle)) (off : Nat),
      (depOffsets s).Nodup → off ∈ depOffsets s →
      readField ((s.foldl (walkStep (fun _ h =>
          if h == oldh then Action.Rewrite newh else Action.Keep)) (b, l)).1) off
        = if readField b off = oldh then newh else readField b off := by
  induction s with
  | nil =>
    intro b l off _ hmem
    simp [depOffsets] at hmem
  | cons fld rest ih =>
    intro b l off hnd hmem
    cases fld with
    | opaqueData =>
      simp only [List.foldl_cons, walkStep]
      exact ih b l off (by simpa [depOffsets] using hnd)
        (by simpa [depOffsets] using hmem)
    | depField off2 e =>
      have hoffs : depOffsets (SchemaField.depField off2 e :: rest) =
          off2 :: depOffsets rest := by
        simp [depOffsets]
      rw [hoffs] at hnd hmem
      have hnd2 : (depOffsets rest).Nodup := (List.nodup_cons.mp hnd).2
      have hnm : off2 ∉ depOffsets rest := (List.nodup_cons.mp hnd).1
      simp only [List.foldl_cons, walkStep]
      by_cases hnull : ((readField b off2).index == NULL_INDEX) = true
      · rw [if_pos hnull]
        rcases List.mem_cons.mp hmem with hcase | hcase
        · subst hcase
          rw [walkStep_payload_not_mem _ _ _ _ _ hnm]
          have hneq : readField b off ≠ oldh := by
            intro hcon
            apply hnew
            rw [← hcon]
            simpa [beq_iff_eq] using hnull
          rw [if_neg hneq]
        · exact ih b l off hnd2 hcase
      · rw [if_neg hnull]
        by_cases hold : (readField b off2 == oldh) = true
        · have hcb : (if readField b off2 == oldh then Action.Rewrite newh
              else Action.Keep) = Action.Rewrite newh := if_pos hold
          simp only [hcb]
          simp only [beq_iff_eq] at hold
          rcases List.mem_cons.mp hmem with hcase | hcase
          · subst hcase
            rw [walkStep_payload_not_mem _ _ _ _ _ hnm]
            have hnn : readField b off ≠ nullHandle := by
              intro hcon
              apply hnull
              rw [hcon]
              simp [nullHandle]
            rw [readField_writeField_self b off newh hnn, if_pos hold]
          · rw [ih (writeField b off2 newh)
              (l ++ [(off2, readField b off2)]) off hnd2 hcase]
            have hro : readField (writeField b off2 newh) off =
                readField b off := by
              apply readField_writeField_ne
              intro hcon
              rw [hcon] at hnm
              exact hnm hcase
            rw [hro]
        · have hcb : (if readField b off2 == oldh then Action.Rewrite newh
              else Action.Keep) = Action.Keep := if_neg hold
          simp only [hcb]
          rcases List.mem_cons.mp hmem with hcase | hcase
          · subst hcase
            rw [walkStep_payload_not_mem _ _ _ _ _ hnm]
            have hneq : readField b off ≠ oldh := by
              simpa [beq_iff_eq] using hold
            rw [if_neg hneq]
          · exact ih b (l ++ [(off2, readField b off2)]) off hnd2 hcase

theorem rewrite_deps_read_char (b : Payload) (s : Schema)
    (oldh newh : AssetHandle) (hnew : oldh.index ≠ NULL_INDEX)
    (hnd : (depOffsets s).Nodup) (off : Nat) (hmem : off ∈ depOffsets s) :
    readField (rewrite_deps b s oldh newh) off =
      if readField b off = oldh then newh else readField b off := by
  unfold rewrite_deps for_each_dependency
  exact rewrite_deps_read_aux oldh newh s hnew b [] off hnd hmem

theorem rewrite_deps_noop_aux (oldh newh : AssetHandle) (s : Schema) :
    ∀ (b : Payload) (l : List (Nat × AssetHandle)),
      (∀ off ∈ depOffsets s, readField b off ≠ oldh) →
      (s.foldl (walkStep (fun _ h =>
        if h == oldh then Action.Rewrite newh else Action.Keep)) (b, l)).1 = b := by
  induction s with
  | nil =>
    intro b l _
    rfl
  | cons fld rest ih =>
    intro b l hno
    cases fld with
    | opaqueData =>
      simp only [List.foldl_cons, walkStep]
      exact ih b l (fun off hoff => hno off (by simpa [depOffsets] using hoff))
    | depField off2 e =>
      have hmem2 : off2 ∈ depOffsets (SchemaField.depField off2 e :: rest) := by
        simp [depOffsets]
      have hrest : ∀ off ∈ depOffsets rest, readField b off ≠ oldh := by
        intro off hoff
        apply hno
        simp [depOffsets]
        right
        simpa [depOffsets] using hoff
      simp only [List.foldl_cons, walkStep]
      by_cases hnull : ((readField b off2).index == NULL_INDEX) = true
      · rw [if_pos hnull]
        exact ih b l hrest
      · rw [if_neg hnull]
        have hcb : (if readField b off2 == oldh then Action.Rewrite newh
            else Action.Keep) = Action.Keep := by
          apply if_neg
          simp only [beq_iff_eq]
          exact hno off2 hmem2
        simp only [hcb]
        exact ih b (l ++ [(off2, readField b off2)]) hrest

theorem rewrite_deps_noop (b : Payload) (s : Schema)
    (oldh newh : AssetHandle)
    (hno : ∀ off ∈ depOffsets s, readField b off ≠ oldh) :
    rewrite_deps b s oldh newh = b := by
  unfold rewrite_deps for_each_dependency
  exact rewrite_deps_noop_aux oldh newh s b [] hno


theorem map_id_of_mem {α : Type} (l : List α) (f : α → α)
    (h : ∀ a ∈ l, f a = a) : l.map f = l := by
  induction l with
  | nil => rfl
  | cons x xs ih =>
    simp only [List.map_cons]
    rw [h x (by simp), ih (fun a ha => h a (by simp [ha]))]

/-- Claim C1 (amended with old distinct from new): for valid handles old
and new with old different from new, replace_tag_dependencies succeeds;
afterwards no asset other than the record of old has a dependency field
equal to old, every dependency field that held old now holds new and the
others are untouched; the record of old is unmodified and old stays
valid (not released); and when no asset references old the call is a
no-op that still succeeds.  Dependency offsets of each schema are
pairwise distinct (disjoint fields) and old is not the null sentinel. -/
theorem claim1_replace_tag_dependencies (t : AssetTable)
    (oldh newh : AssetHandle) (sf : AssetClass → Schema)
    (hvold : is_valid t.alloc oldh = true)
    (hvnew : is_valid t.alloc newh = true)
    (hne : oldh ≠ newh)
    (hnidx : oldh.index ≠ NULL_INDEX)
    (hsch : ∀ r ∈ t.records, (depOffsets (sf r.cls)).Nodup) :
    ∃ t2, replace_tag_dependencies t oldh newh sf = .ok t2 ∧
      t2.alloc = t.alloc ∧
      is_valid t2.alloc oldh = true ∧
      t2.records = t.records.map (fun r =>
        if r.handle == oldh then r
        else { r with raw_bytes := rewrite_deps r.raw_bytes (sf r.cls) oldh newh }) ∧
      (∀ r ∈ t.records, ∀ off ∈ depOffsets (sf r.cls),
        readField (rewrite_deps r.raw_bytes (sf r.cls) oldh newh) off =
          if readField r.raw_bytes off = oldh then newh
          else readField r.raw_bytes off) ∧
      (∀ r2 ∈ t2.records, r2.handle ≠ oldh →
        ∀ off ∈ depOffsets (sf r2.cls), readField r2.raw_bytes off ≠ oldh) ∧
      ((∀ r ∈ t.records, r.handle ≠ oldh →
          ∀ off ∈ depOffsets (sf r.cls), readField r.raw_bytes off ≠ oldh) →
        replace_tag_dependencies t oldh newh sf = .ok t) := by
  have hcond : (is_valid t.alloc oldh && is_valid t.alloc newh) = true := by
    rw [hvold, hvnew]
    rfl
  refine ⟨⟨t.alloc, t.records.map (fun r =>
      if r.handle == oldh then r
      else { r with raw_bytes := rewrite_deps r.raw_bytes (sf r.cls) oldh newh })⟩,
    ?_, rfl, hvold, rfl, ?_, ?_, ?_⟩
  · unfold replace_tag_dependencies
    rw [if_pos hcond]
  · intro r hr off hoff
    exact rewrite_deps_read_char r.raw_bytes (sf r.cls) oldh newh hnidx
      (hsch r hr) off hoff
  · intro r2 hr2 hneh off hoff
    obtain ⟨r, hr, rfl⟩ := List.mem_map.mp hr2
    by_cases hh : (r.handle == oldh) = true
    · rw [if_pos hh] at hneh
      simp only [beq_iff_eq] at hh
      exact absurd hh hneh
    · rw [if_neg hh] at hneh hoff ⊢
      have hoff2 : off ∈ depOffsets (sf r.cls) := hoff
      show readField (rewrite_deps r.raw_bytes (sf r.cls) oldh newh) off ≠ oldh
      rw [rewrite_deps_read_char r.raw_bytes (sf r.cls) oldh newh hnidx
        (hsch r hr) off hoff2]
      by_cases holdv : readField r.raw_bytes off = oldh
      · rw [if_pos holdv]
        exact fun hcon => hne hcon.symm
      · rw [if_neg holdv]
        exact holdv
  · intro hno
    unfold replace_tag_dependencies
    rw [if_pos hcond]
    have hid : ∀ r ∈ t.records, (if r.handle == oldh then r
        else { r with raw_bytes :=
          rewrite_deps r.raw_bytes (sf r.cls) oldh newh }) = r := by
      intro r hr
      by_cases hh : (r.handle == oldh) = true
      · rw [if_pos hh]
      · rw [if_neg hh]
        have hneq : r.handle ≠ oldh := by
          simpa [beq_iff_eq] using hh
        rw [rewrite_deps_noop r.raw_bytes (sf r.cls) oldh newh (hno r hr hneq)]
    rw [map_id_of_mem _ _ hid]

/-- Counterexample to claim C1 as stated: with old equal to new (a pair
of valid handles the claim quantifies over), the call succeeds but the
record of the model asset, which is not the record of old, still holds
a dependency field equal to old afterwards. -/
theorem claim1_counterexample :
    replace_tag_dependencies cycTable ⟨1, 1⟩ ⟨1, 1⟩ cycSf = .ok cycTable ∧
    cycRecA ∈ cycTable.records ∧
    cycRecA.handle ≠ (⟨1, 1⟩ : AssetHandle) ∧
    (0 : Nat) ∈ depOffsets (cycSf cycRecA.cls) ∧
    readField cycRecA.raw_bytes 0 = ⟨1, 1⟩ := by
  decide

/-- Witness for amended claim C1 at a concrete table and handle pair. -/
theorem claim1_witness :
    ∃ t2, replace_tag_dependencies cycTable ⟨1, 1⟩ ⟨0, 1⟩ cycSf = .ok t2 ∧
      is_valid t2.alloc ⟨1, 1⟩ = true := by
  obtain ⟨t2, hok, _, hvalid, _⟩ := claim1_replace_tag_dependencies
    cycTable ⟨1, 1⟩ ⟨0, 1⟩ cycSf (by decide) (by decide) (by decide)
    (by decide) (by decide)
  exact ⟨t2, hok, hvalid⟩


theorem get_some_valid {t : AssetTable} {h : AssetHandle} {r : AssetRecord}
    (hget : t.get h = some r) : is_valid t.alloc h = true := by
  unfold AssetTable.get at hget
  by_cases hv : is_valid t.alloc h = true
  · exact hv
  · rw [if_neg hv] at hget
    exact Option.noConfusion hget

theorem find_map_preserve (g : AssetRecord → AssetRecord)
    (hg : ∀ r, (g r).path = r.path ∧ (g r).cls = r.cls ∧ (g r).handle = r.handle)
    (l : List AssetRecord) (path : String) (c : AssetClass) :
    ((l.map g).find? (fun r => r.path == path && r.cls == c)).map
      (fun r => r.handle)
      = (l.find? (fun r => r.path == path && r.cls == c)).map
        (fun r => r.handle) := by
  rw [List.find?_map]
  have hpred : ((fun r : AssetRecord => r.path == path && r.cls == c) ∘ g) =
      (fun r : AssetRecord => r.path == path && r.cls == c) := by
    funext r
    simp [Function.comp, (hg r).1, (hg r).2.1]
  rw [hpred]
  cases hf : l.find? (fun r : AssetRecord => r.path == path && r.cls == c) with
  | none => rfl
  | some r => simp [(hg r).2.2]

theorem replace_payload_find {t t2 : AssetTable} {h : AssetHandle}
    {nb : Payload} (hok : t.replace_payload h nb = .ok t2) :
    ∀ path c, t2.find path c = t.find path c := by
  unfold AssetTable.replace_payload at hok
  by_cases hv : is_valid t.alloc h = true
  · rw [if_pos hv] at hok
    cases hok
    intro path c
    unfold AssetTable.find
    show ((t.records.map fun r =>
      if r.handle == h then { r with raw_bytes := nb } else r).reverse.find?
        (fun r => r.path == path && r.cls == c)).map (fun r => r.handle) = _
    rw [List.reverse_map]

    exact find_map_preserve _
      (fun r => by
        by_cases hh : (r.handle == h) = true
        · rw [if_pos hh]
          simp only [beq_iff_eq] at hh
          exact ⟨rfl, rfl, by simp [hh]⟩
        · rw [if_neg hh]
          exact ⟨rfl, rfl, rfl⟩)
      t.records.reverse path c
  · rw [if_neg hv] at hok
    exact Except.noConfusion hok

/-- Claim C8: a stale or unknown handle presented to reload_tag_data or
replace_tag_dependencies makes the call fail with InvalidHandle,
reported to the caller as the result of the operation. -/
theorem claim8_invalid_handle_reported (t : AssetTable)
    (h oldh newh : AssetHandle)
    (rs : MapRef → String → AssetClass → Option Payload)
    (sf : AssetClass → Schema)
    (hinv : is_valid t.alloc h = false)
    (hinv2 : is_valid t.alloc oldh = false ∨ is_valid t.alloc newh = false) :
    reload_tag_data t h rs = .error .InvalidHandle ∧
    replace_tag_dependencies t oldh newh sf = .error .InvalidHandle := by
  constructor
  · unfold reload_tag_data AssetTable.get
    rw [if_neg (by simp [hinv])]
  · unfold replace_tag_dependencies
    rcases hinv2 with hcase | hcase
    · rw [if_neg (by simp [hcase])]
    · rw [if_neg (by simp [hcase])]

/-- Witness for claim C8 at a stale handle of a concrete table. -/
theorem claim8_witness :
    reload_tag_data cycTable ⟨0, 7⟩ rs0 = .error .InvalidHandle ∧
    replace_tag_dependencies cycTable ⟨0, 7⟩ ⟨1, 1⟩ cycSf =
      .error .InvalidHandle :=
  claim8_invalid_handle_reported cycTable ⟨0, 7⟩ ⟨0, 7⟩ ⟨1, 1⟩ rs0 cycSf
    (by decide) (Or.inl (by decide))

/-- Claim C2: after reload_tag_data(h) succeeds on the record r of h,
the allocator is untouched so h is still valid, find(path, class) is
unchanged for every key (so whatever it returned before, in particular
h, it still returns), the reload only swaps the raw_bytes of the record
of h keeping class, path and handle, and every other record of the
table, hence every dependency field of any other asset that pointed at
h, is byte-for-byte unchanged. -/
theorem claim2_reload_preserves_identity (t t2 : AssetTable)
    (h : AssetHandle) (rs : MapRef → String → AssetClass → Option Payload)
    (r : AssetRecord) (hget : t.get h = some r)
    (hok : reload_tag_data t h rs = .ok t2) :
    t2.alloc = t.alloc ∧
    is_valid t2.alloc h = true ∧
    (∀ path c, t2.find path c = t.find path c) ∧
    (∃ nb, t2.records = t.records.map (fun r2 =>
        if r2.handle == h then { r2 with raw_bytes := nb } else r2)) ∧
    (∀ r2 ∈ t.records, r2.handle ≠ h → r2 ∈ t2.records) := by
  have hv : is_valid t.alloc h = true := get_some_valid hget
  unfold reload_tag_data at hok
  rw [hget] at hok
  dsimp only at hok
  cases hsrc : rs r.source_map_id r.path r.cls with
  | none =>
    rw [hsrc] at hok
    dsimp only at hok
    exact Except.noConfusion hok
  | some nb =>
    rw [hsrc] at hok
    dsimp only at hok
    have hfind := replace_payload_find hok
    unfold AssetTable.replace_payload at hok
    rw [if_pos hv] at hok
    cases hok
    refine ⟨rfl, hv, hfind, ⟨nb, rfl⟩, ?_⟩
    intro r2 hr2 hneq
    have hid : (if r2.handle == h then { r2 with raw_bytes := nb } else r2)
        = r2 := by
      rw [if_neg (by simpa [beq_iff_eq] using hneq)]
    have hmem := List.mem_map_of_mem (fun r2 =>
      if r2.handle == h then { r2 with raw_bytes := nb } else r2) hr2
    dsimp only at hmem
    rw [hid] at hmem
    exact hmem

/-- Witness for claim C2 at a concrete table and source reader. -/
theorem claim2_witness :
    reload_tag_data cycTable ⟨0, 1⟩ rs0 = .ok rldT2 ∧
    is_valid rldT2.alloc ⟨0, 1⟩ = true ∧
    rldT2.find "model" ⟨1⟩ = cycTable.find "model" ⟨1⟩ := by
  have hres := claim2_reload_preserves_identity cycTable rldT2 ⟨0, 1⟩ rs0
    cycRecA (by decide) (by decide)
  exact ⟨by decide, hres.2.1, hres.2.2.1 "model" ⟨1⟩⟩


theorem mergePhase_cons (p : MapProvider) (acc : AssetTable × List Diagnostic)
    (req : ImportRequest) (reqs : List ImportRequest) :
    mergePhase p acc (req :: reqs) =
      mergePhase p ((processRequest p acc.1 req).1,
        acc.2 ++ (processRequest p acc.1 req).2) reqs := rfl

theorem mergePhase_nil (p : MapProvider) (acc : AssetTable × List Diagnostic) :
    mergePhase p acc [] = acc := rfl

theorem drain_table (p : MapProvider) (reg : AssetClass → Option Schema)
    (t : AssetTable) (q : List ImportRequest) :
    (drain_at_load_boundary p reg t q).table = (mergePhase p (t, []) q).1 := by
  unfold drain_at_load_boundary
  dsimp only
  cases sweepCheck reg (mergePhase p (t, []) q).1 <;> rfl

/-- Counterexample to claim C9 as stated: the all-tags import of the
repository header has a single overload whose parameter is a map file
path, so no call of it ever enqueues an AllTags request whose map_ref
is a map name. -/
theorem claim9_counterexample :
    ¬ ∃ (arg : String) (q : List ImportRequest),
      (import_tags_from_map arg q).getLast? =
        some (.allTags (.mapName "bloodgulch")) := by
  rintro ⟨arg, q, hlast⟩
  rw [import_tags_from_map, List.getLast?_concat] at hlast
  simp at hlast

/-- Claim C9 (amended): the all-tags import request carries its map_ref
as a map file path only, the map-name form existing only for the
single-tag request, and resolution is deferred to drain time for both
request forms: the all-tags request is recorded even when the provider
cannot resolve the file, and only the drain reports MapNotFound. -/
theorem claim9_request_import_all (arg : String) (q : List ImportRequest)
    (p : MapProvider) (reg : AssetClass → Option Schema) (t : AssetTable)
    (hnone : p (.mapFile arg) = none)
    (hreg : sweepCheck reg t = none) :
    import_tags_from_map arg q = q ++ [.allTags (.mapFile arg)] ∧
    (∀ path cls q2,
      import_tag_from_map_name arg path cls q2 =
        q2 ++ [.singleTag (.mapName arg) path cls]) ∧
    (drain_at_load_boundary p reg t (import_tags_from_map arg [])).diags =
      [.MapNotFound (.mapFile arg)] ∧
    (drain_at_load_boundary p reg t (import_tags_from_map arg [])).table = t := by
  have hmerge : mergePhase p (t, []) [ImportRequest.allTags (MapRef.mapFile arg)]
      = (t, [Diagnostic.MapNotFound (MapRef.mapFile arg)]) := by
    rw [mergePhase_cons]
    dsimp only
    have hstep : processRequest p t (ImportRequest.allTags (MapRef.mapFile arg))
        = (t, [Diagnostic.MapNotFound (MapRef.mapFile arg)]) := by
      unfold processRequest
      dsimp only
      rw [hnone]
    rw [hstep]
    rfl
  have hdrain : drain_at_load_boundary p reg t (import_tags_from_map arg []) =
      ⟨t, [Diagnostic.MapNotFound (MapRef.mapFile arg)], EngineState.Idle⟩ := by
    show drain_at_load_boundary p reg t
      [ImportRequest.allTags (MapRef.mapFile arg)] = _
    unfold drain_at_load_boundary
    dsimp only
    rw [hmerge]
    dsimp only
    rw [hreg]
  exact ⟨rfl, fun path cls q2 => rfl, by rw [hdrain], by rw [hdrain]⟩

/-- Witness for amended claim C9 at a concrete provider and queue. -/
theorem claim9_witness :
    import_tags_from_map "bonus" [] =
      [ImportRequest.allTags (MapRef.mapFile "bonus")] ∧
    (drain_at_load_boundary pNone regAll emptyTable
      (import_tags_from_map "bonus" [])).diags =
      [Diagnostic.MapNotFound (MapRef.mapFile "bonus")] := by
  have hres := claim9_request_import_all "bonus" [] pNone regAll emptyTable
    (by decide) (by decide)
  exact ⟨hres.1, hres.2.2.1⟩


/-- Claim C5: a drain whose queue holds one request on an unresolvable
map and one valid all-tags request completes the valid request exactly
as if it were alone (same table, same final state), reports exactly one
MapNotFound diagnostic in front of the diagnostics of the valid-only
drain, which themselves contain no MapNotFound; and the drain ends in
Failed exactly when some stored class has no registered schema
(UnknownClass), every other condition leaving the engine on the Idle
path. -/
theorem claim5_scoped_failure_isolation (p : MapProvider)
    (reg : AssetClass → Option Schema) (t : AssetTable)
    (reqBad : ImportRequest) (mB mG : MapRef) (entries : List ForeignEntry)
    (hbad : requestMapRef reqBad = mB) (hnone : p mB = none)
    (hgood : p mG = some entries) :
    (drain_at_load_boundary p reg t [reqBad, .allTags mG]).table =
      (drain_at_load_boundary p reg t [.allTags mG]).table ∧
    (drain_at_load_boundary p reg t [reqBad, .allTags mG]).state =
      (drain_at_load_boundary p reg t [.allTags mG]).state ∧
    (drain_at_load_boundary p reg t [reqBad, .allTags mG]).diags =
      .MapNotFound mB ::
        (drain_at_load_boundary p reg t [.allTags mG]).diags ∧
    (∀ m2, Diagnostic.MapNotFound m2 ∉
      (drain_at_load_boundary p reg t [.allTags mG]).diags) ∧
    ((drain_at_load_boundary p reg t [reqBad, .allTags mG]).state =
        EngineState.Failed ↔
      (sweepCheck reg
        (drain_at_load_boundary p reg t [reqBad, .allTags mG]).table).isSome) := by
  have hbadstep : processRequest p t reqBad = (t, [Diagnostic.MapNotFound mB]) := by
    cases reqBad with
    | singleTag m path cls =>
      simp only [requestMapRef] at hbad
      subst hbad
      unfold processRequest
      dsimp only
      rw [hnone]
    | allTags m =>
      simp only [requestMapRef] at hbad
      subst hbad
      unfold processRequest
      dsimp only
      rw [hnone]
  have hgoodstep : processRequest p t (ImportRequest.allTags mG) =
      (entries.foldl (fun acc e => processEntry acc mG e) t, []) := by
    unfold processRequest
    dsimp only
    rw [hgood]
  have hm2 : mergePhase p (t, []) [reqBad, ImportRequest.allTags mG] =
      (entries.foldl (fun acc e => processEntry acc mG e) t,
        [Diagnostic.MapNotFound mB]) := by
    rw [mergePhase_cons]
    dsimp only
    rw [hbadstep]
    rw [mergePhase_cons]
    dsimp only
    rw [hgoodstep]
    rw [mergePhase_nil]
    simp
  have hm1 : mergePhase p (t, []) [ImportRequest.allTags mG] =
      (entries.foldl (fun acc e => processEntry acc mG e) t, []) := by
    rw [mergePhase_cons]
    dsimp only
    rw [hgoodstep]
    rw [mergePhase_nil]
    rfl
  cases hsw : sweepCheck reg (entries.foldl (fun acc e => processEntry acc mG e) t) with
  | some c =>
    have hd2 : drain_at_load_boundary p reg t [reqBad, ImportRequest.allTags mG] =
        ⟨entries.foldl (fun acc e => processEntry acc mG e) t,
          [Diagnostic.MapNotFound mB, Diagnostic.UnknownClass c],
          EngineState.Failed⟩ := by
      unfold drain_at_load_boundary
      dsimp only
      rw [hm2]
      dsimp only
      rw [hsw]
      rfl
    have hd1 : drain_at_load_boundary p reg t [ImportRequest.allTags mG] =
        ⟨entries.foldl (fun acc e => processEntry acc mG e) t,
          [Diagnostic.UnknownClass c], EngineState.Failed⟩ := by
      unfold drain_at_load_boundary
      dsimp only
      rw [hm1]
      dsimp only
      rw [hsw]
      rfl
    rw [hd2, hd1]
    refine ⟨rfl, rfl, rfl, ?_, ?_⟩
    · intro m2 hm
      simp at hm
    · simp [hsw]
  | none =>
    have hd2 : drain_at_load_boundary p reg t [reqBad, ImportRequest.allTags mG] =
        ⟨entries.foldl (fun acc e => processEntry acc mG e) t,
          [Diagnostic.MapNotFound mB], EngineState.Idle⟩ := by
      unfold drain_at_load_boundary
      dsimp only
      rw [hm2]
      dsimp only
      rw [hsw]
    have hd1 : drain_at_load_boundary p reg t [ImportRequest.allTags mG] =
        ⟨entries.foldl (fun acc e => processEntry acc mG e) t,
          [], EngineState.Idle⟩ := by
      unfold drain_at_load_boundary
      dsimp only
      rw [hm1]
      dsimp only
      rw [hsw]
    rw [hd2, hd1]
    refine ⟨rfl, rfl, rfl, ?_, ?_⟩
    · intro m2 hm
      simp at hm
    · simp [hsw]

/-- Witness for claim C5 at a concrete provider, one bad and one valid
request. -/
theorem claim5_witness :
    (drain_at_load_boundary pWit regAll emptyTable
        [ImportRequest.allTags (MapRef.mapName "missing"),
         ImportRequest.allTags (MapRef.mapFile "good")]).diags =
      Diagnostic.MapNotFound (MapRef.mapName "missing") ::
        (drain_at_load_boundary pWit regAll emptyTable
          [ImportRequest.allTags (MapRef.mapFile "good")]).diags :=
  (claim5_scoped_failure_isolation pWit regAll emptyTable
    (ImportRequest.allTags (MapRef.mapName "missing"))
    (MapRef.mapName "missing") (MapRef.mapFile "good") [witEntry]
    rfl (by decide) (by decide)).2.2.1


theorem find_some_elim {t : AssetTable} {path : String} {cls : AssetClass}
    {h0 : AssetHandle} (hf : t.find path cls = some h0) :
    ∃ r, r ∈ t.records ∧ r.path = path ∧ r.cls = cls ∧ r.handle = h0 := by
  unfold AssetTable.find at hf
  cases hfind : t.records.reverse.find?
      (fun r => r.path == path && r.cls == cls) with
  | none =>
    rw [hfind] at hf
    exact Option.noConfusion hf
  | some r =>
    rw [hfind] at hf
    have hpred := List.find?_some hfind
    simp only [Bool.and_eq_true, beq_iff_eq] at hpred
    have hmem : r ∈ t.records :=
      List.mem_reverse.mp (List.mem_of_find?_eq_some hfind)
    refine ⟨r, hmem, hpred.1, hpred.2, ?_⟩
    simpa using hf

theorem find_none_elim {t : AssetTable} {path : String} {cls : AssetClass}
    (hf : t.find path cls = none) :
    ∀ r ∈ t.records, ¬(r.path = path ∧ r.cls = cls) := by
  unfold AssetTable.find at hf
  cases hfind : t.records.reverse.find?
      (fun r => r.path == path && r.cls == cls) with
  | some r =>
    rw [hfind] at hf
    exact Option.noConfusion hf
  | none =>
    intro r hr hcon
    have hmem : r ∈ t.records.reverse := List.mem_reverse.mpr hr
    have hnp := List.find?_eq_none.mp hfind r hmem
    simp [hcon.1, hcon.2] at hnp

theorem find_none_count {t : AssetTable} {path : String} {cls : AssetClass}
    (hf : t.find path cls = none) : countPC t path cls = 0 := by
  unfold countPC
  rw [List.length_eq_zero]
  rw [List.filter_eq_nil_iff]
  intro r hr
  have hno := find_none_elim hf r hr
  simp only [Bool.and_eq_true, beq_iff_eq]
  intro hcon
  exact hno hcon

theorem find_some_count {t : AssetTable} {path : String} {cls : AssetClass}
    {h0 : AssetHandle} (hf : t.find path cls = some h0) :
    1 ≤ countPC t path cls := by
  obtain ⟨r, hr, hp, hc, _⟩ := find_some_elim hf
  have hmem : r ∈ t.records.filter (fun r => r.path == path && r.cls == cls) :=
    List.mem_filter.mpr ⟨hr, by simp [hp, hc]⟩
  exact List.length_pos_of_mem hmem

theorem count_one_unique {t : AssetTable} {path : String} {cls : AssetClass}
    (hc : countPC t path cls = 1) :
    ∀ r1 ∈ t.records, r1.path = path → r1.cls = cls →
      ∀ r2 ∈ t.records, r2.path = path → r2.cls = cls → r1 = r2 := by
  unfold countPC at hc
  obtain ⟨x, hx⟩ := List.length_eq_one.mp hc
  intro r1 h1 hp1 hc1 r2 h2 hp2 hc2
  have m1 : r1 ∈ t.records.filter (fun r => r.path == path && r.cls == cls) :=
    List.mem_filter.mpr ⟨h1, by simp [hp1, hc1]⟩
  have m2 : r2 ∈ t.records.filter (fun r => r.path == path && r.cls == cls) :=
    List.mem_filter.mpr ⟨h2, by simp [hp2, hc2]⟩
  rw [hx] at m1 m2
  simp only [List.mem_singleton] at m1 m2
  rw [m1, m2]

theorem countPC_map (g : AssetRecord → AssetRecord)
    (hg : ∀ r, (g r).path = r.path ∧ (g r).cls = r.cls)
    (l : List AssetRecord) (path : String) (cls : AssetClass) :
    (List.filter (fun r => r.path == path && r.cls == cls) (l.map g)).length
      = (List.filter (fun r => r.path == path && r.cls == cls) l).length := by
  have hpred : ((fun r : AssetRecord => r.path == path && r.cls == cls) ∘ g) =
      (fun r : AssetRecord => r.path == path && r.cls == cls) := by
    funext r
    simp [Function.comp, (hg r).1, (hg r).2]
  rw [List.filter_map, hpred, List.length_map]

theorem find_table_map (a : Allocator) (t : AssetTable)
    (g : AssetRecord → AssetRecord)
    (hg : ∀ r, (g r).path = r.path ∧ (g r).cls = r.cls ∧ (g r).handle = r.handle)
    (path : String) (cls : AssetClass) :
    AssetTable.find ⟨a, t.records.map g⟩ path cls = t.find path cls := by
  unfold AssetTable.find
  dsimp only
  rw [← List.map_reverse]
  exact find_map_preserve g hg t.records.reverse path cls

theorem table_map_WF (t : AssetTable) (g : AssetRecord → AssetRecord)
    (hg : ∀ r, (g r).handle = r.handle) (hwf : TableWF t) :
    TableWF ⟨t.alloc, t.records.map g⟩ := by
  intro r2 hr2
  obtain ⟨r, hr, rfl⟩ := List.mem_map.mp hr2
  show is_valid t.alloc (g r).handle = true
  rw [hg r]
  exact hwf r hr

theorem insert_WF (t : AssetTable) (cls : AssetClass) (path : String)
    (bytes : Payload) (src : MapRef) (hwf : TableWF t) :
    TableWF (t.insert cls path bytes src).1 := by
  intro r2 hr2
  have hr2b : r2 ∈ t.records ++
      [⟨(allocate t.alloc).2, cls, path, bytes, src⟩] := hr2
  show is_valid (allocate t.alloc).1 r2.handle = true
  rcases List.mem_append.mp hr2b with hcase | hcase
  · exact (allocate_preserves_valid (hwf r2 hcase)).1
  · have heq : r2 = ⟨(allocate t.alloc).2, cls, path, bytes, src⟩ := by
      simpa using hcase
    rw [heq]
    exact allocate_valid_after t.alloc

theorem find_insert_self (t : AssetTable) (cls : AssetClass) (path : String)
    (bytes : Payload) (src : MapRef) :
    ((t.insert cls path bytes src).1).find path cls =
      some (allocate t.alloc).2 := by
  unfold AssetTable.insert AssetTable.find
  dsimp only
  rw [List.reverse_append]
  simp only [List.reverse_cons, List.reverse_nil, List.nil_append,
    List.cons_append, List.singleton_append]
  rw [List.find?_cons_of_pos _ (by simp)]
  rfl

theorem countPC_insert_self (t : AssetTable) (cls : AssetClass)
    (path : String) (bytes : Payload) (src : MapRef) :
    countPC (t.insert cls path bytes src).1 path cls =
      countPC t path cls + 1 := by
  unfold countPC AssetTable.insert
  dsimp only
  rw [List.filter_append]
  simp

theorem processEntry_insert {t : AssetTable} {m : MapRef} {e : ForeignEntry}
    (hf : t.find e.path e.cls = none) :
    processEntry t m e = (t.insert e.cls e.path e.bytes m).1 := by
  unfold processEntry
  rw [hf]

theorem processEntry_replace {t : AssetTable} {m : MapRef} {e : ForeignEntry}
    {h0 : AssetHandle} (hwf : TableWF t)
    (hf : t.find e.path e.cls = some h0) :
    processEntry t m e = ⟨t.alloc, t.records.map (fun r =>
      if r.handle == h0 then { r with raw_bytes := e.bytes } else r)⟩ := by
  obtain ⟨r0, hr0, _, _, hh0⟩ := find_some_elim hf
  have hv : is_valid t.alloc h0 = true := by
    rw [← hh0]
    exact hwf r0 hr0
  unfold processEntry
  rw [hf]
  dsimp only
  unfold AssetTable.replace_payload
  rw [if_pos hv]

theorem processRequest_single (p : MapProvider) (t : AssetTable) (m : MapRef)
    (path : String) (cls : AssetClass) (entries : List ForeignEntry)
    (e : ForeignEntry) (hp : p m = some entries)
    (he : entries.find? (fun e2 => e2.path == path && e2.cls == cls) = some e) :
    processRequest p t (.singleTag m path cls) = (processEntry t m e, []) := by
  unfold processRequest
  dsimp only
  rw [hp]
  dsimp only
  rw [he]

theorem merge_two_singles (p : MapProvider) (t : AssetTable) (m : MapRef)
    (path : String) (cls : AssetClass) (entries : List ForeignEntry)
    (e : ForeignEntry) (hp : p m = some entries)
    (he : entries.find? (fun e2 => e2.path == path && e2.cls == cls) = some e) :
    (mergePhase p (t, []) [.singleTag m path cls, .singleTag m path cls]).1 =
      processEntry (processEntry t m e) m e := by
  rw [mergePhase_cons]
  dsimp only
  rw [processRequest_single p t m path cls entries e hp he]
  rw [mergePhase_cons]
  dsimp only
  rw [processRequest_single p (processEntry t m e) m path cls entries e hp he]
  rfl


theorem replBytes_pc (h0 : AssetHandle) (nb : Payload) (r : AssetRecord) :
    (replBytes h0 nb r).path = r.path ∧ (replBytes h0 nb r).cls = r.cls := by
  unfold replBytes
  split <;> exact ⟨rfl, rfl⟩

theorem replBytes_pch (h0 : AssetHandle) (nb : Payload) (r : AssetRecord) :
    (replBytes h0 nb r).path = r.path ∧ (replBytes h0 nb r).cls = r.cls ∧
      (replBytes h0 nb r).handle = r.handle := by
  unfold replBytes
  split <;> exact ⟨rfl, rfl, rfl⟩

theorem replBytes_bytes {h0 : AssetHandle} {r : AssetRecord} (nb : Payload)
    (hh : (r.handle == h0) = true) :
    (replBytes h0 nb r).raw_bytes = nb := by
  unfold replBytes
  rw [if_pos hh]

/-- Claim C4: in a drain importing the same (map_ref, path, class)
twice, afterwards exactly one occupied record carries that
(path, class), its payload is the bytes of the imported entry (the
second import wins by in-place replacement), and whatever handle the
table resolved for (path, class) before the drain is still what find
returns after, so existing handles and references survive.  The table
is assumed engine-well-formed: record handles valid and at most one
record per (path, class). -/
theorem claim4_import_idempotence (p : MapProvider)
    (reg : AssetClass → Option Schema) (t : AssetTable) (m : MapRef)
    (path : String) (cls : AssetClass) (entries : List ForeignEntry)
    (e : ForeignEntry)
    (hwf : TableWF t)
    (hcount : countPC t path cls ≤ 1)
    (hp : p m = some entries)
    (he : entries.find? (fun e2 => e2.path == path && e2.cls == cls) = some e) :
    countPC (drain_at_load_boundary p reg t
        [.singleTag m path cls, .singleTag m path cls]).table path cls = 1 ∧
    (∀ r ∈ (drain_at_load_boundary p reg t
        [.singleTag m path cls, .singleTag m path cls]).table.records,
      r.path = path → r.cls = cls → r.raw_bytes = e.bytes) ∧
    (∀ h0, t.find path cls = some h0 →
      (drain_at_load_boundary p reg t
        [.singleTag m path cls, .singleTag m path cls]).table.find path cls
        = some h0) := by
  have hee := List.find?_some he
  simp only [Bool.and_eq_true, beq_iff_eq] at hee
  obtain ⟨hep, hec⟩ := hee
  subst hep
  subst hec
  have htab : (drain_at_load_boundary p reg t
      [.singleTag m e.path e.cls, .singleTag m e.path e.cls]).table =
      processEntry (processEntry t m e) m e := by
    rw [drain_table]
    exact merge_two_singles p t m e.path e.cls entries e hp he
  rw [htab]
  cases hf : t.find e.path e.cls with
  | none =>
    have hT1 : processEntry t m e = (t.insert e.cls e.path e.bytes m).1 :=
      processEntry_insert hf
    have hwf1 : TableWF (t.insert e.cls e.path e.bytes m).1 :=
      insert_WF t e.cls e.path e.bytes m hwf
    have hfind1 : ((t.insert e.cls e.path e.bytes m).1).find e.path e.cls =
        some (allocate t.alloc).2 := find_insert_self t e.cls e.path e.bytes m
    have hTf : processEntry (t.insert e.cls e.path e.bytes m).1 m e =
        ⟨((t.insert e.cls e.path e.bytes m).1).alloc,
          ((t.insert e.cls e.path e.bytes m).1).records.map
            (replBytes (allocate t.alloc).2 e.bytes)⟩ :=
      processEntry_replace hwf1 hfind1
    rw [hT1, hTf]
    refine ⟨?_, ?_, ?_⟩
    · show (List.filter (fun r : AssetRecord => r.path == e.path && r.cls == e.cls)
        (((t.records ++ ([⟨(allocate t.alloc).2, e.cls, e.path, e.bytes, m⟩] :
            List AssetRecord)).map
          (replBytes (allocate t.alloc).2 e.bytes)))).length = 1
      rw [countPC_map (replBytes (allocate t.alloc).2 e.bytes)
        (replBytes_pc (allocate t.alloc).2 e.bytes) _ e.path e.cls]
      rw [List.filter_append, List.length_append]
      have h00 : (List.filter (fun r => r.path == e.path && r.cls == e.cls)
          t.records).length = 0 := find_none_count hf
      rw [h00]
      simp
    · intro r hr hpath hcls
      obtain ⟨r1, hr1, rfl⟩ := List.mem_map.mp hr
      have hr1b : r1 ∈ t.records ++
          [⟨(allocate t.alloc).2, e.cls, e.path, e.bytes, m⟩] := hr1
      rcases List.mem_append.mp hr1b with hcase | hcase
      · exfalso
        apply find_none_elim hf r1 hcase
        constructor
        · rw [← (replBytes_pc (allocate t.alloc).2 e.bytes r1).1]
          exact hpath
        · rw [← (replBytes_pc (allocate t.alloc).2 e.bytes r1).2]
          exact hcls
      · have hr1e : r1 = ⟨(allocate t.alloc).2, e.cls, e.path, e.bytes, m⟩ := by
          simpa using hcase
        rw [hr1e]
        exact replBytes_bytes e.bytes (by simp)
    · intro h0 h0f
      exact Option.noConfusion h0f
  | some h0 =>
    have hcnt1 : countPC t e.path e.cls = 1 :=
      Nat.le_antisymm hcount (find_some_count hf)
    have hT1 : processEntry t m e =
        ⟨t.alloc, t.records.map (replBytes h0 e.bytes)⟩ :=
      processEntry_replace hwf hf
    have hwf1 : TableWF ⟨t.alloc, t.records.map (replBytes h0 e.bytes)⟩ :=
      table_map_WF t (replBytes h0 e.bytes)
        (fun r => (replBytes_pch h0 e.bytes r).2.2) hwf
    have hfind1 : AssetTable.find
        ⟨t.alloc, t.records.map (replBytes h0 e.bytes)⟩ e.path e.cls =
        some h0 := by
      rw [find_table_map t.alloc t (replBytes h0 e.bytes)
        (replBytes_pch h0 e.bytes) e.path e.cls]
      exact hf
    have hTf : processEntry
        ⟨t.alloc, t.records.map (replBytes h0 e.bytes)⟩ m e =
        ⟨t.alloc, (t.records.map (replBytes h0 e.bytes)).map
          (replBytes h0 e.bytes)⟩ :=
      processEntry_replace hwf1 hfind1
    rw [hT1, hTf]
    obtain ⟨rf, hrf, hrfp, hrfc, hrfh⟩ := find_some_elim hf
    refine ⟨?_, ?_, ?_⟩
    · show (List.filter (fun r : AssetRecord => r.path == e.path && r.cls == e.cls)
        ((t.records.map (replBytes h0 e.bytes)).map
          (replBytes h0 e.bytes))).length = 1
      rw [countPC_map (replBytes h0 e.bytes) (replBytes_pc h0 e.bytes) _
        e.path e.cls]
      rw [countPC_map (replBytes h0 e.bytes) (replBytes_pc h0 e.bytes) _
        e.path e.cls]
      exact hcnt1
    · intro r hr hpath hcls
      obtain ⟨r1, hr1, rfl⟩ := List.mem_map.mp hr
      obtain ⟨r2, hr2, rfl⟩ := List.mem_map.mp hr1
      have hr2p : r2.path = e.path := by
        rw [← (replBytes_pc h0 e.bytes r2).1,
          ← (replBytes_pc h0 e.bytes (replBytes h0 e.bytes r2)).1]
        exact hpath
      have hr2c : r2.cls = e.cls := by
        rw [← (replBytes_pc h0 e.bytes r2).2,
          ← (replBytes_pc h0 e.bytes (replBytes h0 e.bytes r2)).2]
        exact hcls
      have hre : r2 = rf :=
        count_one_unique hcnt1 r2 hr2 hr2p hr2c rf hrf hrfp hrfc
      have hh2 : ((replBytes h0 e.bytes r2).handle == h0) = true := by
        rw [(replBytes_pch h0 e.bytes r2).2.2, hre, hrfh]
        simp
      exact replBytes_bytes e.bytes hh2
    · intro h0' h0f
      have hinj : h0 = h0' := Option.some.inj h0f
      subst hinj
      have houter := find_table_map t.alloc
        ⟨t.alloc, t.records.map (replBytes h0 e.bytes)⟩
        (replBytes h0 e.bytes) (replBytes_pch h0 e.bytes) e.path e.cls
      rw [houter]
      exact hfind1

/-- Witness for claim C4 at a concrete provider and double import. -/
theorem claim4_witness :
    countPC (drain_at_load_boundary pWit regAll emptyTable
        [ImportRequest.singleTag (MapRef.mapFile "good") "pistol" ⟨2⟩,
         ImportRequest.singleTag (MapRef.mapFile "good") "pistol" ⟨2⟩]).table
      "pistol" ⟨2⟩ = 1 :=
  (claim4_import_idempotence pWit regAll emptyTable (MapRef.mapFile "good")
    "pistol" ⟨2⟩ [witEntry] witEntry
    (fun r hr => absurd hr (List.not_mem_nil r)) (by decide) (by decide)
    (by decide)).1

end Balltze
